import Mathlib

/-!
Shallow embedding of the faa local development supervisor (Go) in Lean 4,
with theorems settling the frozen specification claims.

Conventions:
* Go strings are modelled as `List Char` (`GoStr`); Go byte slices as `List Nat`.
* Go `map[string]V` is modelled as an association list with key-replacing
  insertion (`insertA`); iteration order is irrelevant to every claim below.
* Go `int` values that can be negative (ports passed to `InjectPort`) are
  `Int`; values that are provably non-negative in the source (hash-derived
  ports, PIDs read as counters) are `Nat` where noted.
* Filesystem effects are modelled as explicit state passing over a map from
  path to file content; fallible operations return `Except`/`Option` or carry
  a Boolean outcome for the injected OS-level failure (e.g. `rename`).
-/

/-- Go strings, modelled as lists of unicode scalar characters. -/
abbrev GoStr := List Char

/-- Association-list lookup, first match wins (models Go `m[k]` presence). -/
def lookupA {α : Type} (m : List (GoStr × α)) (k : GoStr) : Option α :=
  match m with
  | [] => none
  | (k', v) :: rest => if k' = k then some v else lookupA rest k

/-- Association-list insert with in-place replacement of an existing key
(models Go `m[k] = v`). -/
def insertA {α : Type} (m : List (GoStr × α)) (k : GoStr) (v : α) :
    List (GoStr × α) :=
  match m with
  | [] => [(k, v)]
  | (k', v') :: rest =>
      if k' = k then (k, v) :: rest else (k', v') :: insertA rest k v

/-- Association-list delete (models Go `delete(m, k)`). -/
def eraseA {α : Type} (m : List (GoStr × α)) (k : GoStr) : List (GoStr × α) :=
  match m with
  | [] => []
  | (k', v') :: rest => if k' = k then rest else (k', v') :: eraseA rest k

/-- Decimal digits of a natural number, most significant first (fuel-based
structural recursion so that proofs can evaluate it; `n + 1` units of fuel
always suffice since the argument shrinks by a factor of ten). -/
def natToDecAux : Nat → Nat → GoStr → GoStr
  | 0, _, acc => acc
  | Nat.succ fuel, n, acc =>
      let acc' := Char.ofNat (48 + n % 10) :: acc
      if n < 10 then acc' else natToDecAux fuel (n / 10) acc'

/-- Decimal digits of a natural number, most significant first. -/
def natToDec (n : Nat) : GoStr := natToDecAux (n + 1) n []

/-- Decimal rendering of a Go `int`, as produced by `fmt.Sprintf("%d", i)`. -/
def goItoa (i : Int) : GoStr :=
  if i < 0 then '-' :: natToDec i.natAbs else natToDec i.toNat

/-! ## DevProc: `InjectPort` (src/internal/devproc/portargs.go) -/

/-- Embedding of `devproc.InjectPort`: for a nil/empty command returns
`(nil, nil)`; otherwise returns a fresh slice `command ++ ["--port", port]`
(the source builds it with `make`+`copy`, which appends without mutating the
input) and the env map with the single entry `PORT`. -/
def InjectPort (command : List GoStr) (port : Int) :
    Option (List GoStr) × Option (List (GoStr × GoStr)) :=
  if command.isEmpty then (none, none)
  else
    (some (command ++ ["--port".toList, goItoa port]),
     some [("PORT".toList, goItoa port)])

/-! ## Registry host normalization (src/internal/daemon/registry.go) -/

/-- The domain suffix `.local` appended to route keys. -/
def dotLocal : GoStr := ".local".toList

/-- Embedding of `daemon.normalizeHost`: append `.local` unless already
present as a suffix. -/
def normalizeHost (host : GoStr) : GoStr :=
  if dotLocal.isSuffixOf host then host else host ++ dotLocal

/-- Embedding of the normalization loop of `Registry.loadRoutes`: every raw
key parsed from `routes.json` is rewritten through `normalizeHost` before
entering the in-memory map (legacy un-suffixed keys get `.local` appended). -/
def loadRoutesNorm (raw : List (GoStr × Int)) : List (GoStr × Int) :=
  raw.foldl (fun acc kv => insertA acc (normalizeHost kv.1) kv.2) []

/-- Embedding of the map mutation of `Registry.UpsertRoute`: load (with
normalization) then set the normalized key. -/
def upsertRouteMap (raw : List (GoStr × Int)) (host : GoStr) (port : Int) :
    List (GoStr × Int) :=
  insertA (loadRoutesNorm raw) (normalizeHost host) port

/-- Embedding of the lookup of `Registry.GetRoute`: load (with normalization),
normalize the query, return the port or 0 when absent. -/
def getRouteMap (raw : List (GoStr × Int)) (host : GoStr) : Int :=
  (lookupA (loadRoutesNorm raw) (normalizeHost host)).getD 0

/-- Boolean check that every key of a routes map carries the `.local` suffix. -/
def allKeysLocal (m : List (GoStr × Int)) : Bool :=
  m.all fun kv => dotLocal.isSuffixOf kv.1

/-! Helper lemmas for the `.local` invariant. -/

theorem normalizeHost_suffix (h : GoStr) : dotLocal.isSuffixOf (normalizeHost h) = true := by
  unfold normalizeHost
  by_cases hc : dotLocal.isSuffixOf h = true
  · simp [hc]
  · simp only [hc]
    simp only [Bool.not_eq_true] at hc
    simp [hc, List.isSuffixOf_iff_suffix, List.suffix_append]

theorem normalizeHost_idem (h : GoStr) :
    normalizeHost (normalizeHost h) = normalizeHost h := by
  have hs := normalizeHost_suffix h
  unfold normalizeHost
  by_cases hc : dotLocal.isSuffixOf h = true
  · simp [normalizeHost, hc] at hs ⊢
  · simp only [hc, Bool.false_eq_true, if_false]
    have : dotLocal.isSuffixOf (h ++ dotLocal) = true := by
      simp [List.isSuffixOf_iff_suffix, List.suffix_append]
    simp [this]

theorem insertA_allKeysLocal (m : List (GoStr × Int)) (k : GoStr) (v : Int)
    (hm : allKeysLocal m = true) (hk : dotLocal.isSuffixOf k = true) :
    allKeysLocal (insertA m k v) = true := by
  induction m with
  | nil => simp [insertA, allKeysLocal, hk]
  | cons kv rest ih =>
      obtain ⟨k', v'⟩ := kv
      simp only [allKeysLocal, List.all_cons, Bool.and_eq_true] at hm
      by_cases hc : k' = k
      · simp [insertA, hc, allKeysLocal, hk, hm.2]
      · simp only [insertA, hc, if_false, allKeysLocal, List.all_cons,
          Bool.and_eq_true]
        exact ⟨hm.1, ih hm.2⟩

theorem loadRoutesNorm_allKeysLocal (raw : List (GoStr × Int)) :
    allKeysLocal (loadRoutesNorm raw) = true := by
  have step : ∀ (l : List (GoStr × Int)) (acc : List (GoStr × Int)),
      allKeysLocal acc = true →
      allKeysLocal (l.foldl (fun acc kv => insertA acc (normalizeHost kv.1) kv.2) acc) = true := by
    intro l
    induction l with
    | nil => intro acc h; simpa using h
    | cons kv rest ih =>
        intro acc h
        simp only [List.foldl_cons]
        exact ih _ (insertA_allKeysLocal _ _ _ h (normalizeHost_suffix _))
  exact step raw [] rfl

/-- C10: `InjectPort(command, port)` returns `(nil, nil)` for a nil or empty
command; for every non-empty command it returns a fresh slice equal to
`command` with `"--port"` and the decimal rendering of `port` appended
(the pure embedding cannot mutate its input), together with an environment
map containing exactly the single entry `PORT` mapped to the same decimal
string. -/
theorem injectPort_spec (c : GoStr) (cs : List GoStr) (port : Int) :
    InjectPort [] port = (none, none) ∧
    (InjectPort (c :: cs) port).1 =
      some ((c :: cs) ++ ["--port".toList, goItoa port]) ∧
    (InjectPort (c :: cs) port).2 = some [("PORT".toList, goItoa port)] := by
  refine ⟨rfl, ?_, ?_⟩ <;> simp [InjectPort]

/-- C9: every host key of the in-memory routes map ends with `.local`:
loading rewrites legacy un-suffixed keys, upsert inserts only normalized
keys, and a lookup for a host is identical to the lookup for its
`.local`-suffixed form. -/
theorem routes_keys_local (raw : List (GoStr × Int)) (host : GoStr) (port : Int) :
    allKeysLocal (loadRoutesNorm raw) = true ∧
    allKeysLocal (upsertRouteMap raw host port) = true ∧
    getRouteMap raw host = getRouteMap raw (normalizeHost host) := by
  refine ⟨loadRoutesNorm_allKeysLocal raw, ?_, ?_⟩
  · exact insertA_allKeysLocal _ _ _ (loadRoutesNorm_allKeysLocal raw)
      (normalizeHost_suffix host)
  · unfold getRouteMap
    rw [normalizeHost_idem]

/-! ## Registry persistence (src/internal/daemon/registry.go)

The registry's two files live under the config directory; we model the
filesystem as a function from path to optional file content.  File content is
modelled at the document level (the parsed JSON object), since
`json.MarshalIndent` of a string-keyed map is deterministic and injective:
`routes.json` holds a `host → port` object, `processes.json` a
`projectRoot → Process` object. -/

/-- A registry `Process` record (daemon.Process). `time.Time` is modelled as
an abstract tick counter. -/
structure Process where
  projectRoot : GoStr
  pid : Int
  host : GoStr
  port : Int
  startedAt : Nat
deriving DecidableEq, Repr

/-- Parsed content of a registry file. -/
inductive RegDoc where
  | routes (m : List (GoStr × Int))
  | procs (m : List (GoStr × Process))
deriving DecidableEq

/-- The modelled filesystem: path → content, `none` = file absent. -/
def RegFS := GoStr → Option RegDoc

/-- Write (create or truncate) a file. -/
def fsWrite (fs : RegFS) (p : GoStr) (d : RegDoc) : RegFS :=
  fun q => if q = p then some d else fs q

/-- Remove a file. -/
def fsRemove (fs : RegFS) (p : GoStr) : RegFS :=
  fun q => if q = p then none else fs q

/-- Atomic `os.Rename(src, dst)`: `dst` takes `src`'s content, `src` vanishes. -/
def fsRename (fs : RegFS) (src dst : GoStr) : RegFS :=
  fun q => if q = dst then fs src else if q = src then none else fs q

/-- The empty filesystem. -/
def fsEmpty : RegFS := fun _ => none

def routesPath : GoStr := "routes.json".toList
def processesPath : GoStr := "processes.json".toList

/-- The `.tmp` sibling suffix used by the write-then-rename discipline. -/
def tmpSuffix : GoStr := ".tmp".toList

/-- Shared body of `Registry.saveRoutes` / `Registry.saveProcesses` (the two
Go functions are textually identical up to path and payload): marshal the
full document, write it to the sibling `.tmp` path, rename over the real
path; on rename failure (injected via `renameOk`) remove the `.tmp` file
best-effort and report the error.  `os.WriteFile` of the temp file is
modelled as succeeding; a write failure returns before `path` is touched
either way. -/
def saveDocAtomic (fs : RegFS) (path : GoStr) (doc : RegDoc) (renameOk : Bool) :
    RegFS × Bool :=
  let tempPath := path ++ tmpSuffix
  let fs1 := fsWrite fs tempPath doc
  if renameOk then (fsRename fs1 tempPath path, true)
  else (fsRemove fs1 tempPath, false)

/-- Embedding of `Registry.saveRoutes`. -/
def saveRoutesFS (fs : RegFS) (routes : List (GoStr × Int)) (renameOk : Bool) :
    RegFS × Bool :=
  saveDocAtomic fs routesPath (RegDoc.routes routes) renameOk

/-- Embedding of `Registry.saveProcesses`. -/
def saveProcessesFS (fs : RegFS) (procs : List (GoStr × Process)) (renameOk : Bool) :
    RegFS × Bool :=
  saveDocAtomic fs processesPath (RegDoc.procs procs) renameOk

theorem append_tmp_ne (p : GoStr) : p ++ tmpSuffix ≠ p := by
  intro h
  have := congrArg List.length h
  simp [tmpSuffix] at this

theorem saveDocAtomic_spec (fs : RegFS) (path : GoStr) (doc : RegDoc)
    (renameOk : Bool) :
    (saveDocAtomic fs path doc renameOk).2 = renameOk ∧
    (saveDocAtomic fs path doc renameOk).1 path =
      (if renameOk then some doc else fs path) ∧
    (saveDocAtomic fs path doc renameOk).1 (path ++ tmpSuffix) = none := by
  have hne : path ++ tmpSuffix ≠ path := append_tmp_ne path
  cases renameOk with
  | false =>
      refine ⟨rfl, ?_, ?_⟩
      · simp [saveDocAtomic, fsRemove, fsWrite, hne, tmpSuffix]
      · simp [saveDocAtomic, fsRemove, fsWrite]
  | true =>
      refine ⟨rfl, ?_, ?_⟩
      · simp [saveDocAtomic, fsRename, fsWrite]
      · simp [saveDocAtomic, fsRename, fsWrite, hne, tmpSuffix]

/-- C5: both registry persistence operations write the full document to the
sibling `.tmp` path and rename it over `routes.json` / `processes.json`.
On success the committed file holds exactly the new document and the `.tmp`
file is gone; on rename failure the operation reports the error, the `.tmp`
file is removed best-effort, and the committed file still holds its previous
content — so the committed file is always either the prior state or the new
state, never partial. -/
theorem registry_save_atomic (fs : RegFS) (routes : List (GoStr × Int))
    (procs : List (GoStr × Process)) (renameOk : Bool) :
    ((saveRoutesFS fs routes true).2 = true ∧
      (saveRoutesFS fs routes true).1 routesPath = some (RegDoc.routes routes) ∧
      (saveRoutesFS fs routes true).1 (routesPath ++ tmpSuffix) = none) ∧
    ((saveRoutesFS fs routes false).2 = false ∧
      (saveRoutesFS fs routes false).1 routesPath = fs routesPath ∧
      (saveRoutesFS fs routes false).1 (routesPath ++ tmpSuffix) = none) ∧
    ((saveProcessesFS fs procs true).2 = true ∧
      (saveProcessesFS fs procs true).1 processesPath = some (RegDoc.procs procs) ∧
      (saveProcessesFS fs procs true).1 (processesPath ++ tmpSuffix) = none) ∧
    ((saveProcessesFS fs procs false).2 = false ∧
      (saveProcessesFS fs procs false).1 processesPath = fs processesPath ∧
      (saveProcessesFS fs procs false).1 (processesPath ++ tmpSuffix) = none) ∧
    ((saveRoutesFS fs routes renameOk).1 routesPath = fs routesPath ∨
      (saveRoutesFS fs routes renameOk).1 routesPath = some (RegDoc.routes routes)) ∧
    ((saveProcessesFS fs procs renameOk).1 processesPath = fs processesPath ∨
      (saveProcessesFS fs procs renameOk).1 processesPath = some (RegDoc.procs procs)) := by
  obtain ⟨a1, a2, a3⟩ := saveDocAtomic_spec fs routesPath (RegDoc.routes routes) true
  obtain ⟨b1, b2, b3⟩ := saveDocAtomic_spec fs routesPath (RegDoc.routes routes) false
  obtain ⟨c1, c2, c3⟩ := saveDocAtomic_spec fs processesPath (RegDoc.procs procs) true
  obtain ⟨d1, d2, d3⟩ := saveDocAtomic_spec fs processesPath (RegDoc.procs procs) false
  obtain ⟨e1, e2, e3⟩ := saveDocAtomic_spec fs routesPath (RegDoc.routes routes) renameOk
  obtain ⟨f1, f2, f3⟩ := saveDocAtomic_spec fs processesPath (RegDoc.procs procs) renameOk
  refine ⟨⟨a1, ?_, a3⟩, ⟨b1, ?_, b3⟩, ⟨c1, ?_, c3⟩, ⟨d1, ?_, d3⟩, ?_, ?_⟩
  · simpa using a2
  · simpa using b2
  · simpa using c2
  · simpa using d2
  · cases renameOk with
    | true => right; simpa using e2
    | false => left; simpa using e2
  · cases renameOk with
    | true => right; simpa using f2
    | false => left; simpa using f2

/-! ## Proxy controller (proxy.Proxy, package proxy) -/

/-- The proxy controller's state: its routes snapshot and whether the
embedded Caddy server is running.  The `sync.RWMutex` serializes the
operations below; each operation is modelled as one atomic transition. -/
structure ProxyState where
  routes : List (GoStr × Int)
  running : Bool
deriving DecidableEq

/-- The `make` + `range` copy loop that `ApplyRoutes` uses to replace
`p.routes` with a fresh map holding the snapshot's entries. -/
def copyRoutes (routes : List (GoStr × Int)) : List (GoStr × Int) :=
  routes.foldl (fun acc kv => insertA acc kv.1 kv.2) []

/-- Embedding of `Proxy.ApplyRoutes`.  `caddyLoadOk` injects the outcome of
the `caddy.Load` reconfiguration call (`json.Marshal` of the string-keyed
config map in `buildConfigJSON` cannot fail and is modelled as succeeding).
Returns the new controller state and whether the call returned nil error.
Note the source overwrites `p.routes` with the new snapshot *before* calling
`caddy.Load` and does not restore it on failure. -/
def ApplyRoutes (p : ProxyState) (routes : List (GoStr × Int))
    (caddyLoadOk : Bool) : ProxyState × Bool :=
  if p.running = false then
    ({ p with routes := copyRoutes routes }, true)
  else
    let p1 : ProxyState := { p with routes := copyRoutes routes }
    if caddyLoadOk then (p1, true) else (p1, false)

/-! ## Daemon request router (package daemon, supervisor) -/

/-- Message-type constants declared by the IPC layer (messages.go). -/
def MessageTypePing : GoStr := "ping".toList
def MessageTypeUpsertRoute : GoStr := "upsert_route".toList
def MessageTypeGetRoute : GoStr := "get_route".toList
def MessageTypeListRoutes : GoStr := "list_routes".toList
def MessageTypeSetProcess : GoStr := "set_process".toList
def MessageTypeGetProcess : GoStr := "get_process".toList
def MessageTypeClearProcess : GoStr := "clear_process".toList
def MessageTypeStatus : GoStr := "status".toList
def MessageTypeStop : GoStr := "stop".toList

/-- Typed request payloads (the JSON `data` field after unmarshalling). -/
inductive ReqData where
  | empty
  | upsertRoute (host : GoStr) (port : Int)
  | getRoute (host : GoStr)
  | setProcess (projectRoot : GoStr) (pid : Int) (host : GoStr) (port : Int)
      (startedAt : Nat)
  | getProcess (projectRoot : GoStr)
  | clearProcess (projectRoot : GoStr)
  | stop (clearRoutes : Bool)
deriving DecidableEq

/-- An IPC request: a type tag (an arbitrary string on the wire) plus data. -/
structure Request where
  rtype : GoStr
  data : ReqData
deriving DecidableEq

/-- Successful-response payloads. -/
inductive RespData where
  | empty
  | pong
  | routesList (routes : List (GoStr × Int))
  | procOpt (p : Option Process)
  | statusData (routes : List (GoStr × Int)) (procs : List Process)
deriving DecidableEq

/-- An IPC response: `ok` with payload, or a typed error message. -/
inductive Resp where
  | ok (d : RespData)
  | err (msg : GoStr)
deriving DecidableEq

/-- The supervisor's world: registry filesystem, proxy controller state,
liveness oracle for PIDs, current time, injected outcomes for the fallible
OS calls, and the shutdown flag set by `handleStop`. -/
structure DaemonWorld where
  fs : RegFS
  proxy : ProxyState
  alive : Int → Bool
  now : Nat
  renameOk : Bool
  caddyLoadOk : Bool
  shutdownRequested : Bool

/-- Embedding of `Registry.loadRoutes` against the modelled filesystem:
missing file ⇒ empty map, parse failure ⇒ error, otherwise the raw object
with every key normalized. -/
def loadRoutesFS (fs : RegFS) : Option (List (GoStr × Int)) :=
  match fs routesPath with
  | none => some []
  | some (RegDoc.routes raw) => some (loadRoutesNorm raw)
  | some (RegDoc.procs _) => none

/-- Embedding of `Registry.loadProcesses`: missing file ⇒ empty map, parse
failure ⇒ error (no key normalization for processes). -/
def loadProcessesFS (fs : RegFS) : Option (List (GoStr × Process)) :=
  match fs processesPath with
  | none => some []
  | some (RegDoc.procs m) => some m
  | some (RegDoc.routes _) => none

/-- Embedding of `Registry.UpsertRoute`: reload, set the normalized key,
save atomically. -/
def registryUpsertRoute (fs : RegFS) (host : GoStr) (port : Int)
    (renameOk : Bool) : RegFS × Bool :=
  match loadRoutesFS fs with
  | none => (fs, false)
  | some routes => saveRoutesFS fs (insertA routes (normalizeHost host) port) renameOk

/-- Embedding of `Registry.SetProcess`. -/
def registrySetProcess (fs : RegFS) (projectRoot : GoStr) (pid : Int)
    (host : GoStr) (port : Int) (startedAt : Nat) (renameOk : Bool) :
    RegFS × Bool :=
  match loadProcessesFS fs with
  | none => (fs, false)
  | some procs =>
      saveProcessesFS fs
        (insertA procs projectRoot
          ⟨projectRoot, pid, host, port, startedAt⟩) renameOk

/-- Embedding of `Registry.ClearProcess`. -/
def registryClearProcess (fs : RegFS) (projectRoot : GoStr) (renameOk : Bool) :
    RegFS × Bool :=
  match loadProcessesFS fs with
  | none => (fs, false)
  | some procs => saveProcessesFS fs (eraseA procs projectRoot) renameOk

/-- Embedding of `daemon.isProcessAlive`: `pid ≤ 0` is dead, otherwise the
signal-0 probe (the `alive` oracle). -/
def isProcessAlive (alive : Int → Bool) (pid : Int) : Bool :=
  if pid ≤ 0 then false else alive pid

/-- Embedding of `Registry.CleanupStaleProcesses`: drop every record whose
PID is dead, persist once if anything changed. -/
def registryCleanupStale (fs : RegFS) (alive : Int → Bool) (renameOk : Bool) :
    RegFS × Bool :=
  match loadProcessesFS fs with
  | none => (fs, false)
  | some procs =>
      let kept := procs.filter fun kv => isProcessAlive alive kv.2.pid
      if kept.length = procs.length then (fs, true)
      else saveProcessesFS fs kept renameOk

/-- Embedding of `Daemon.handleUpsertRoute`: upsert in the registry, reload
the full routes map, hand it to the proxy controller; any failure becomes an
error response (with the registry mutation already persisted). -/
def handleUpsertRouteM (w : DaemonWorld) (host : GoStr) (port : Int) :
    DaemonWorld × Resp :=
  let r := registryUpsertRoute w.fs host port w.renameOk
  if r.2 = false then ({ w with fs := r.1 }, Resp.err "registry error".toList)
  else
    match loadRoutesFS r.1 with
    | none => ({ w with fs := r.1 }, Resp.err "failed to load routes".toList)
    | some routes =>
        let a := ApplyRoutes w.proxy routes w.caddyLoadOk
        if a.2 then ({ w with fs := r.1, proxy := a.1 }, Resp.ok RespData.empty)
        else ({ w with fs := r.1, proxy := a.1 },
          Resp.err "failed to apply routes to proxy".toList)

/-- Embedding of `Daemon.handleListRoutes`. -/
def handleListRoutesM (w : DaemonWorld) : DaemonWorld × Resp :=
  match loadRoutesFS w.fs with
  | none => (w, Resp.err "failed to load routes".toList)
  | some routes => (w, Resp.ok (RespData.routesList routes))

/-- Embedding of `Daemon.handleSetProcess` (`startedAt` 0 models the zero
`time.Time`, defaulted to `now`). -/
def handleSetProcessM (w : DaemonWorld) (projectRoot : GoStr) (pid : Int)
    (host : GoStr) (port : Int) (startedAt : Nat) : DaemonWorld × Resp :=
  let t := if startedAt = 0 then w.now else startedAt
  let r := registrySetProcess w.fs projectRoot pid host port t w.renameOk
  if r.2 then ({ w with fs := r.1 }, Resp.ok RespData.empty)
  else ({ w with fs := r.1 }, Resp.err "registry error".toList)

/-- Embedding of `Daemon.handleGetProcess`: sweep stale records (errors only
logged), then look up. -/
def handleGetProcessM (w : DaemonWorld) (projectRoot : GoStr) :
    DaemonWorld × Resp :=
  let c := registryCleanupStale w.fs w.alive w.renameOk
  let w1 := { w with fs := c.1 }
  match loadProcessesFS w1.fs with
  | none => (w1, Resp.err "registry error".toList)
  | some procs => (w1, Resp.ok (RespData.procOpt (lookupA procs projectRoot)))

/-- Embedding of `Daemon.handleClearProcess`. -/
def handleClearProcessM (w : DaemonWorld) (projectRoot : GoStr) :
    DaemonWorld × Resp :=
  let r := registryClearProcess w.fs projectRoot w.renameOk
  if r.2 then ({ w with fs := r.1 }, Resp.ok RespData.empty)
  else ({ w with fs := r.1 }, Resp.err "registry error".toList)

/-- Embedding of `Daemon.handleStatus`: sweep stale (errors only logged),
then snapshot both maps. -/
def handleStatusM (w : DaemonWorld) : DaemonWorld × Resp :=
  let c := registryCleanupStale w.fs w.alive w.renameOk
  let w1 := { w with fs := c.1 }
  match loadRoutesFS w1.fs with
  | none => (w1, Resp.err "failed to load routes".toList)
  | some routes =>
      match loadProcessesFS w1.fs with
      | none => (w1, Resp.err "registry error".toList)
      | some procs =>
          (w1, Resp.ok (RespData.statusData routes (procs.map Prod.snd)))

/-- Embedding of `Daemon.handleStop`: the `clearRoutes` option is parsed but
ignored (routes are not cleared); shutdown is scheduled after the response. -/
def handleStopM (w : DaemonWorld) : DaemonWorld × Resp :=
  ({ w with shutdownRequested := true }, Resp.ok RespData.empty)

/-- Embedding of `Daemon.handleRequest`: the switch over the request's type
tag, exactly the eight cases present in the source; any other tag (including
the declared `get_route`) falls to the unknown-message-type error. -/
def handleRequest (w : DaemonWorld) (req : Request) : DaemonWorld × Resp :=
  if req.rtype = MessageTypePing then (w, Resp.ok RespData.pong)
  else if req.rtype = MessageTypeUpsertRoute then
    match req.data with
    | ReqData.upsertRoute host port => handleUpsertRouteM w host port
    | _ => (w, Resp.err "invalid request data".toList)
  else if req.rtype = MessageTypeListRoutes then handleListRoutesM w
  else if req.rtype = MessageTypeSetProcess then
    match req.data with
    | ReqData.setProcess root pid host port startedAt =>
        handleSetProcessM w root pid host port startedAt
    | _ => (w, Resp.err "invalid request data".toList)
  else if req.rtype = MessageTypeGetProcess then
    match req.data with
    | ReqData.getProcess root => handleGetProcessM w root
    | _ => (w, Resp.err "invalid request data".toList)
  else if req.rtype = MessageTypeClearProcess then
    match req.data with
    | ReqData.clearProcess root => handleClearProcessM w root
    | _ => (w, Resp.err "invalid request data".toList)
  else if req.rtype = MessageTypeStatus then handleStatusM w
  else if req.rtype = MessageTypeStop then handleStopM w
  else (w, Resp.err ("unknown message type: ".toList ++ req.rtype))

/-- A concrete daemon world with an empty committed routes file, a running
proxy, rename succeeding and the Caddy reconfiguration call failing. -/
def worldApplyFail : DaemonWorld :=
  { fs := fsWrite fsEmpty routesPath (RegDoc.routes [])
    proxy := { routes := [], running := true }
    alive := fun _ => false
    now := 0
    renameOk := true
    caddyLoadOk := false
    shutdownRequested := false }

/-- A concrete daemon world with empty state and no injected failures. -/
def worldFresh : DaemonWorld :=
  { fs := fsEmpty
    proxy := { routes := [], running := false }
    alive := fun _ => false
    now := 0
    renameOk := true
    caddyLoadOk := true
    shutdownRequested := false }

/-- C4 counterexample: with the proxy started and the reconfiguration call
failing, `ApplyRoutes` returns the error but does **not** preserve the prior
routes snapshot — the controller's state already holds the new snapshot. -/
theorem applyRoutes_failure_counterexample :
    (ApplyRoutes ⟨[("a.local".toList, 1)], true⟩ [("b.local".toList, 2)] false).2
        = false ∧
    (ApplyRoutes ⟨[("a.local".toList, 1)], true⟩ [("b.local".toList, 2)] false).1.routes
        ≠ [("a.local".toList, 1)] := by
  constructor
  · rfl
  · decide

/-- C4 (amended): when the proxy is started and the reconfiguration call
fails, `ApplyRoutes` returns the error while the controller's snapshot has
already been replaced by the new routes (the prior snapshot is *not*
preserved); for the `upsert_route` request this error is surfaced to the
client while the route upsert remains persisted in the registry. -/
theorem applyRoutes_failure_spec (p : ProxyState) (snap : List (GoStr × Int))
    (w : DaemonWorld) (raw : List (GoStr × Int)) (host : GoStr) (port : Int)
    (hrun : p.running = true)
    (hfile : w.fs routesPath = some (RegDoc.routes raw))
    (hrename : w.renameOk = true) (hcaddy : w.caddyLoadOk = false)
    (hwrun : w.proxy.running = true) :
    ((ApplyRoutes p snap false).2 = false ∧
      (ApplyRoutes p snap false).1.routes = copyRoutes snap) ∧
    (handleUpsertRouteM w host port).2 =
      Resp.err "failed to apply routes to proxy".toList ∧
    (handleUpsertRouteM w host port).1.fs routesPath =
      some (RegDoc.routes (upsertRouteMap raw host port)) := by
  refine ⟨⟨?_, ?_⟩, ?_, ?_⟩
  · simp [ApplyRoutes, hrun]
  · simp [ApplyRoutes, hrun]
  · simp only [handleUpsertRouteM, registryUpsertRoute, loadRoutesFS, hfile,
      hrename, saveRoutesFS]
    obtain ⟨h1, h2, h3⟩ :=
      saveDocAtomic_spec w.fs routesPath
        (RegDoc.routes (insertA (loadRoutesNorm raw) (normalizeHost host) port)) true
    simp only [if_true] at h2
    rw [h1]
    simp [h2, loadRoutesFS, ApplyRoutes, hwrun, hcaddy]
  · simp only [handleUpsertRouteM, registryUpsertRoute, loadRoutesFS, hfile,
      hrename, saveRoutesFS]
    obtain ⟨h1, h2, h3⟩ :=
      saveDocAtomic_spec w.fs routesPath
        (RegDoc.routes (insertA (loadRoutesNorm raw) (normalizeHost host) port)) true
    simp only [if_true] at h2
    rw [h1]
    simp [h2, ApplyRoutes, hwrun, hcaddy, upsertRouteMap]

/-- C4 witness: the amended statement instantiated at a concrete world whose
proxy is started and whose reconfiguration call fails. -/
theorem applyRoutes_failure_spec_witness :
    ((ApplyRoutes ⟨[], true⟩ [] false).2 = false ∧
      (ApplyRoutes ⟨[], true⟩ [] false).1.routes = copyRoutes []) ∧
    (handleUpsertRouteM worldApplyFail "x".toList 3).2 =
      Resp.err "failed to apply routes to proxy".toList ∧
    (handleUpsertRouteM worldApplyFail "x".toList 3).1.fs routesPath =
      some (RegDoc.routes (upsertRouteMap [] "x".toList 3)) :=
  applyRoutes_failure_spec ⟨[], true⟩ [] worldApplyFail [] "x".toList 3
    rfl (by decide) rfl rfl rfl

/-- C1: the request router has no case for the declared `get_route` message
type — a `get_route` request (as `Client.GetRoute` sends it) falls through to
the unknown-message-type error instead of answering with the route's port,
while a recognized type such as `ping` is answered successfully. -/
theorem getRoute_request_unknown_type :
    (handleRequest worldFresh
        ⟨MessageTypeGetRoute, ReqData.getRoute "test.local".toList⟩).2 =
      Resp.err ("unknown message type: ".toList ++ MessageTypeGetRoute) ∧
    (handleRequest worldFresh ⟨MessageTypePing, ReqData.empty⟩).2 =
      Resp.ok RespData.pong := by
  constructor <;> rfl

/-! ## File lock (package lock, part_013)

The advisory-lock world: each path may hold a lock file with its byte content
and a flag recording whether another live process holds the exclusive
advisory `flock` on that file's inode.  Removing and recreating the file
yields a fresh inode that carries no advisory lock. -/

/-- A lock file on disk: its content and whether another process holds the
advisory lock on its inode. -/
structure LockFile where
  content : GoStr
  lockedByOther : Bool
deriving DecidableEq

/-- The world a lock `Acquire` call runs in. -/
structure LockWorld where
  files : GoStr → Option LockFile
  alive : Int → Bool
  selfPid : Int

/-- Whitespace as trimmed by `strings.TrimSpace` (ASCII subset). -/
def isSpaceChar (c : Char) : Bool :=
  c = ' ' ∨ c = '\t' ∨ c = '\n' ∨ c = '\x0b' ∨ c = '\x0c' ∨ c = '\r'

/-- Embedding of `strings.TrimSpace`. -/
def trimSpace (s : GoStr) : GoStr :=
  ((s.dropWhile isSpaceChar).reverse.dropWhile isSpaceChar).reverse

/-- ASCII decimal digit test. -/
def isDigitChar (c : Char) : Bool := '0' ≤ c ∧ c ≤ '9'

/-- Numeric value of the digits of a string. -/
def digitsVal (s : GoStr) : Nat :=
  s.foldl (fun acc c => acc * 10 + (c.toNat - 48)) 0

/-- Embedding of `strconv.Atoi`: an optional sign followed by one or more
ASCII digits, nothing else (the `int64` overflow bound is not modelled; lock
files hold PIDs, far below it). -/
def goAtoi (s : GoStr) : Option Int :=
  match s with
  | [] => none
  | '+' :: rest =>
      if rest ≠ [] ∧ rest.all isDigitChar then some (digitsVal rest) else none
  | '-' :: rest =>
      if rest ≠ [] ∧ rest.all isDigitChar then some (-(digitsVal rest : Int)) else none
  | _ =>
      if s.all isDigitChar then some (digitsVal s) else none

/-- Embedding of `lock.isLockStale`: unreadable file or unparseable content
⇒ not stale; a parsed PID is stale iff it is `≤ 0` or its signal-0 probe
fails. -/
def isLockStale (w : LockWorld) (path : GoStr) : Bool :=
  match w.files path with
  | none => false
  | some f =>
      match goAtoi (trimSpace f.content) with
      | none => false
      | some pid => if pid ≤ 0 then true else !(w.alive pid)

/-- Embedding of `lock.Acquire`: open-or-create the file, try the
non-blocking exclusive advisory lock; on contention consult `isLockStale`:
if stale, remove the file, recreate it and lock the fresh inode (the retry
succeeds because the old advisory lock died with the removed inode; no
concurrent acquirer is modelled); otherwise fail busy.  Note that on success
the function returns without ever writing to the file. -/
def AcquireL (w : LockWorld) (path : GoStr) : LockWorld × Bool :=
  let f := (w.files path).getD { content := [], lockedByOther := false }
  let w1 : LockWorld := { w with files := fun q => if q = path then some f else w.files q }
  if f.lockedByOther then
    if isLockStale w1 path then
      let fresh : LockFile := { content := [], lockedByOther := false }
      ({ w1 with files := fun q => if q = path then some fresh else w1.files q }, true)
    else
      (w1, false)
  else
    (w1, true)

/-- A concrete lock world: no files, no live peers, own PID 1234. -/
def lockWorld0 : LockWorld :=
  { files := fun _ => none, alive := fun _ => false, selfPid := 1234 }

/-- C3: a successful `Acquire` never writes the caller's PID into the lock
file — acquiring a fresh lock leaves the file empty, which differs from the
decimal rendering of the current PID (the spec's "write the current PID,
truncating prior contents" step is absent from the code). -/
theorem acquire_leaves_lockfile_empty :
    (AcquireL lockWorld0 "daemon.lock".toList).2 = true ∧
    (AcquireL lockWorld0 "daemon.lock".toList).1.files "daemon.lock".toList =
      some { content := [], lockedByOther := false } ∧
    ([] : GoStr) ≠ goItoa lockWorld0.selfPid := by
  refine ⟨rfl, rfl, by decide⟩


/-- C7: on contention, `Acquire` reads the lock file: if its trimmed content
parses as a PID that is non-positive or fails the signal-0 probe, the file
is removed and the acquisition retried once on the fresh file (succeeding);
if the content is unparseable or the PID is alive, the call fails busy and
the filesystem is left untouched.  The first conjunct characterizes the
staleness test in terms of the file's content. -/
theorem acquire_contention_spec (w : LockWorld) (path : GoStr) (f : LockFile)
    (hf : w.files path = some f) (hlock : f.lockedByOther = true) :
    (isLockStale w path =
      ((goAtoi (trimSpace f.content)).elim false
        fun pid => decide (pid ≤ 0) || !(w.alive pid))) ∧
    (isLockStale w path = true →
      (AcquireL w path).2 = true ∧
      (AcquireL w path).1.files path =
        some { content := [], lockedByOther := false }) ∧
    (isLockStale w path = false →
      (AcquireL w path).2 = false ∧
      ∀ q, (AcquireL w path).1.files q = w.files q) := by
  have hgetd : (w.files path).getD { content := [], lockedByOther := false } = f := by
    rw [hf]; rfl
  have hfiles : (fun q => if q = path then some f else w.files q) = w.files := by
    funext q
    by_cases hq : q = path
    · simp [hq, hf]
    · simp [hq]
  have hworld :
      ({ w with files := (fun q => if q = path then some f else w.files q) } :
        LockWorld) = w :=
    congrArg (fun g => ({ w with files := g } : LockWorld)) hfiles
  refine ⟨?_, ?_, ?_⟩
  · simp only [isLockStale, hf]
    cases goAtoi (trimSpace f.content) with
    | none => rfl
    | some pid =>
        simp only [Option.elim]
        by_cases hp : pid ≤ 0
        · simp [hp]
        · simp [hp]
  · intro hstale
    constructor
    · simp [AcquireL, hgetd, hlock, hworld, hstale]
    · simp [AcquireL, hgetd, hlock, hworld, hstale]
  · intro hnotstale
    constructor
    · simp [AcquireL, hgetd, hlock, hworld, hnotstale]
    · intro q
      by_cases hq : q = path
      · simp [AcquireL, hgetd, hlock, hworld, hnotstale, hq, hf]
      · simp [AcquireL, hgetd, hlock, hworld, hnotstale, hq]

/-- A held lock file whose content is the dead PID 999999. -/
def lockFileBusy : LockFile := { content := "999999".toList, lockedByOther := true }

/-- A world where `a.lock` is held with stale content and only PID 4321 is
alive. -/
def lockWorldBusy : LockWorld :=
  { files := (fun q => if q = "a.lock".toList then some lockFileBusy else none)
    alive := (fun p => p == 4321)
    selfPid := 7 }

/-- C7 witness: the contention theorem instantiated at a held lock file
containing the dead PID 999999 (the stale branch fires: the file is
reclaimed and re-acquired). -/
theorem acquire_contention_spec_witness :
    (isLockStale lockWorldBusy "a.lock".toList =
      ((goAtoi (trimSpace lockFileBusy.content)).elim false
        fun pid => decide (pid ≤ 0) || !(lockWorldBusy.alive pid))) ∧
    (isLockStale lockWorldBusy "a.lock".toList = true →
      (AcquireL lockWorldBusy "a.lock".toList).2 = true ∧
      (AcquireL lockWorldBusy "a.lock".toList).1.files "a.lock".toList =
        some { content := [], lockedByOther := false }) ∧
    (isLockStale lockWorldBusy "a.lock".toList = false →
      (AcquireL lockWorldBusy "a.lock".toList).2 = false ∧
      ∀ q, (AcquireL lockWorldBusy "a.lock".toList).1.files q =
        lockWorldBusy.files q) :=
  acquire_contention_spec lockWorldBusy "a.lock".toList lockFileBusy
    (by decide) rfl

/-! ## Project-name normalization (project.normalizeName, part_000) -/

/-- Characters matched by the class `[a-z0-9-]` (the complement of the first
replacement regex). -/
def isAllowedChar (c : Char) : Bool :=
  ('a' ≤ c ∧ c ≤ 'z') ∨ ('0' ≤ c ∧ c ≤ '9') ∨ c = '-'

/-- Characters matched by `[a-z0-9]`. -/
def isAlnumChar (c : Char) : Bool :=
  ('a' ≤ c ∧ c ≤ 'z') ∨ ('0' ≤ c ∧ c ≤ '9')

/-- Lowercasing as applied by `strings.ToLower`, restricted to the ASCII
letters.  Go performs full Unicode case mapping; the two agree on every
character of `[a-z0-9-]` (fixed points of both), which is all the stated
properties depend on — a non-ASCII character is replaced by `-` under either
mapping unless its Unicode lowercase form is an ASCII letter, which only
changes which run of disallowed characters it joins. -/
def toLowerGo (c : Char) : Char :=
  if 'A' ≤ c ∧ c ≤ 'Z' then Char.ofNat (c.toNat + 32) else c

/-- `regexp.ReplaceAllString` for a pattern of the form `X+` with replacement
`"-"`: every maximal run of characters satisfying `p` becomes a single dash.
The Boolean state records whether we are inside such a run. -/
def collapseRuns (p : Char → Bool) : Bool → GoStr → GoStr
  | _, [] => []
  | inRun, c :: cs =>
      if p c then
        if inRun then collapseRuns p true cs else '-' :: collapseRuns p true cs
      else c :: collapseRuns p false cs

/-- Embedding of `project.normalizeName`: lowercase, replace runs of
characters outside `[a-z0-9-]` by `-`, collapse dash runs, trim dashes from
both ends. -/
def normalizeName (name : GoStr) : GoStr :=
  let lowered := name.map toLowerGo
  let dashed := collapseRuns (fun c => !(isAllowedChar c)) false lowered
  let collapsed := collapseRuns (fun c => c = '-') false dashed
  ((collapsed.dropWhile fun c => c = '-').reverse.dropWhile fun c => c = '-').reverse

/-- The language of `^[a-z0-9]([a-z0-9-]*[a-z0-9])?$`: a single alphanumeric
character, or an alphanumeric character, then characters from `[a-z0-9-]`,
then an alphanumeric character. -/
def matchesLabel : GoStr → Bool
  | [] => false
  | [c] => isAlnumChar c
  | c :: c2 :: cs =>
      isAlnumChar c && ((c2 :: cs).dropLast.all isAllowedChar) &&
        isAlnumChar ((c2 :: cs).getLastD 'x')

/-- No two adjacent dashes. -/
def NoAdjDash (s : GoStr) : Prop :=
  List.Chain' (fun a b => ¬(a = '-' ∧ b = '-')) s

/-- The invariant maintained by `normalizeName`'s output: all characters in
`[a-z0-9-]`, no two adjacent dashes, and no dash at either end. -/
def GoodLabel (s : GoStr) : Prop :=
  s.all isAllowedChar = true ∧ NoAdjDash s ∧
  (∀ c, s.head? = some c → c ≠ '-') ∧
  (∀ c, s.getLast? = some c → c ≠ '-')

theorem mem_collapseRuns (p : Char → Bool) (b : Bool) (s : GoStr) (c : Char)
    (hc : c ∈ collapseRuns p b s) : c = '-' ∨ (c ∈ s ∧ p c = false) := by
  induction s generalizing b with
  | nil => simp [collapseRuns] at hc
  | cons d cs ih =>
      by_cases hd : p d = true
      · cases b with
        | true =>
            simp only [collapseRuns, hd, if_true] at hc
            rcases ih true hc with h | ⟨h1, h2⟩
            · exact Or.inl h
            · exact Or.inr ⟨List.mem_cons_of_mem _ h1, h2⟩
        | false =>
            simp only [collapseRuns, hd, if_true, Bool.false_eq_true, if_false,
              List.mem_cons] at hc
            rcases hc with h | hc
            · exact Or.inl h
            · rcases ih true hc with h | ⟨h1, h2⟩
              · exact Or.inl h
              · exact Or.inr ⟨List.mem_cons_of_mem _ h1, h2⟩
      · simp only [Bool.not_eq_true] at hd
        simp only [collapseRuns, hd, Bool.false_eq_true, if_false,
          List.mem_cons] at hc
        rcases hc with h | hc
        · subst h; exact Or.inr ⟨List.mem_cons_self _ _, hd⟩
        · rcases ih false hc with h | ⟨h1, h2⟩
          · exact Or.inl h
          · exact Or.inr ⟨List.mem_cons_of_mem _ h1, h2⟩

theorem allowedChar_dash : isAllowedChar '-' = true := by decide

theorem collapseRuns_all_allowed (p : Char → Bool) (b : Bool) (s : GoStr)
    (hs : ∀ c ∈ s, p c = false → isAllowedChar c = true) :
    (collapseRuns p b s).all isAllowedChar = true := by
  rw [List.all_eq_true]
  intro c hc
  rcases mem_collapseRuns p b s c hc with h | ⟨h1, h2⟩
  · rw [h]; exact allowedChar_dash
  · exact hs c h1 h2

theorem collapseRuns_dash_chain (s : GoStr) :
    NoAdjDash (collapseRuns (fun c => c = '-') false s) ∧
    NoAdjDash (collapseRuns (fun c => c = '-') true s) ∧
    (∀ c, (collapseRuns (fun c => c = '-') true s).head? = some c → c ≠ '-') := by
  induction s with
  | nil =>
      refine ⟨List.chain'_nil, List.chain'_nil, ?_⟩
      intro c hc
      simp [collapseRuns] at hc
  | cons d cs ih =>
      obtain ⟨ih1, ih2, ih3⟩ := ih
      by_cases hd : d = '-'
      · subst hd
        constructor
        · show NoAdjDash ('-' :: collapseRuns (fun c => c = '-') true cs)
          · rw [NoAdjDash, List.chain'_cons']
            refine ⟨?_, ih2⟩
            intro y hy
            intro hcontra
            exact ih3 y hy hcontra.2
        · constructor
          · show NoAdjDash (collapseRuns (fun c => c = '-') true cs)
            exact ih2
          · intro c hc
            exact ih3 c hc
      · have hdb : (fun c => decide (c = '-')) d = false := by
          simp [hd]
        constructor
        · show NoAdjDash (collapseRuns (fun c => decide (c = '-')) false (d :: cs))
          rw [collapseRuns]
          simp only [hdb, Bool.false_eq_true, if_false]
          rw [NoAdjDash, List.chain'_cons']
          refine ⟨?_, ih1⟩
          intro y _ hcontra
          exact hd hcontra.1
        · constructor
          · show NoAdjDash (collapseRuns (fun c => decide (c = '-')) true (d :: cs))
            rw [collapseRuns]
            simp only [hdb, Bool.false_eq_true, if_false]
            rw [NoAdjDash, List.chain'_cons']
            refine ⟨?_, ih1⟩
            intro y _ hcontra
            exact hd hcontra.1
          · intro c hc
            rw [collapseRuns] at hc
            simp only [hdb, Bool.false_eq_true, if_false, List.head?_cons,
              Option.some.injEq] at hc
            subst hc; exact hd

theorem collapseRuns_id_of_none (p : Char → Bool) (s : GoStr)
    (hs : ∀ c ∈ s, p c = false) (b : Bool) : collapseRuns p b s = s := by
  induction s generalizing b with
  | nil => rfl
  | cons d cs ih =>
      have hd : p d = false := hs d (List.mem_cons_self _ _)
      rw [collapseRuns]
      simp only [hd, Bool.false_eq_true, if_false]
      rw [ih (fun c hc => hs c (List.mem_cons_of_mem _ hc))]

theorem collapseRuns_dash_id (s : GoStr) (hchain : NoAdjDash s) :
    collapseRuns (fun c => c = '-') false s = s ∧
    ((∀ c, s.head? = some c → c ≠ '-') →
      collapseRuns (fun c => c = '-') true s = s) := by
  induction s with
  | nil => exact ⟨rfl, fun _ => rfl⟩
  | cons d cs ih =>
      rw [NoAdjDash, List.chain'_cons'] at hchain
      obtain ⟨hhead, htail⟩ := hchain
      obtain ⟨ih1, ih2⟩ := ih htail
      by_cases hd : d = '-'
      · subst hd
        have hcs : ∀ c, cs.head? = some c → c ≠ '-' := by
          intro c hc hcontra
          exact hhead c hc ⟨rfl, hcontra⟩
        constructor
        · show '-' :: collapseRuns (fun c => c = '-') true cs = '-' :: cs
          rw [ih2 hcs]
        · intro hno
          exact absurd rfl (hno '-' rfl)
      · have hdb : (fun c => decide (c = '-')) d = false := by simp [hd]
        constructor
        · rw [collapseRuns]
          simp only [hdb, Bool.false_eq_true, if_false]
          rw [ih1]
        · intro _
          rw [collapseRuns]
          simp only [hdb, Bool.false_eq_true, if_false]
          rw [ih1]

theorem dropWhile_id_of_head (p : Char → Bool) (s : GoStr)
    (hs : ∀ c, s.head? = some c → p c = false) : s.dropWhile p = s := by
  cases s with
  | nil => rfl
  | cons d cs =>
      have hd : p d = false := hs d rfl
      simp [List.dropWhile_cons, hd]

theorem head?_dropWhile_ne (p : Char → Bool) (l : GoStr) (c : Char)
    (h : (l.dropWhile p).head? = some c) : p c = false := by
  have := List.head?_dropWhile_not p l
  rw [h] at this
  exact this

/-- Every character kept by `normalizeName` lies in `[a-z0-9-]`. -/
theorem normalizeName_all_allowed (name : GoStr) :
    (normalizeName name).all isAllowedChar = true := by
  rw [List.all_eq_true]
  intro c hc
  unfold normalizeName at hc
  simp only at hc
  rw [List.mem_reverse] at hc
  have hc2 := (List.dropWhile_suffix _).subset hc
  rw [List.mem_reverse] at hc2
  have hc3 := (List.dropWhile_suffix _).subset hc2
  have hall := collapseRuns_all_allowed (fun c => c = '-') false
    (collapseRuns (fun c => !(isAllowedChar c)) false (name.map toLowerGo))
    (fun d hd _ => by
      have hall1 := collapseRuns_all_allowed (fun c => !(isAllowedChar c)) false
        (name.map toLowerGo)
        (fun e _ he => by simpa using he)
      exact List.all_eq_true.mp hall1 d hd)
  exact List.all_eq_true.mp hall c hc3

/-- Symmetry transfer of the no-adjacent-dash chain across `reverse`. -/
theorem noAdjDash_reverse (s : GoStr) (h : NoAdjDash s) : NoAdjDash s.reverse := by
  rw [NoAdjDash]
  rw [List.chain'_reverse]
  exact h.imp fun a b hab => fun hc => hab ⟨hc.2, hc.1⟩


/-- The right-trim `(u.reverse.dropWhile d).reverse` is a prefix of `u`. -/
theorem trimRight_isPrefixOf (d : Char → Bool) (u : GoStr) :
    (u.reverse.dropWhile d).reverse <+: u := by
  obtain ⟨t, ht⟩ := List.dropWhile_suffix (l := u.reverse) d
  exact ⟨t.reverse, by rw [← List.reverse_append, ht, List.reverse_reverse]⟩

theorem head?_of_prefix {l u : GoStr} (h : l <+: u) {c : Char}
    (hc : l.head? = some c) : u.head? = some c := by
  obtain ⟨t, ht⟩ := h
  subst ht
  cases l with
  | nil => simp at hc
  | cons a as => simpa using hc

/-- The output of `normalizeName` satisfies the full invariant. -/
theorem normalizeName_good (name : GoStr) : GoodLabel (normalizeName name) := by
  have hall := normalizeName_all_allowed name
  refine ⟨hall, ?_, ?_, ?_⟩
  · simp only [normalizeName]
    apply noAdjDash_reverse
    rw [NoAdjDash]
    apply List.Chain'.suffix _ (List.dropWhile_suffix _)
    apply noAdjDash_reverse
    rw [NoAdjDash]
    apply List.Chain'.suffix _ (List.dropWhile_suffix _)
    exact (collapseRuns_dash_chain _).1
  · intro c hc
    simp only [normalizeName] at hc
    have h2 := head?_of_prefix (trimRight_isPrefixOf _ _) hc
    have h3 := head?_dropWhile_ne _ _ _ h2
    simpa using h3
  · intro c hc
    simp only [normalizeName] at hc
    rw [List.getLast?_reverse] at hc
    have h3 := head?_dropWhile_ne _ _ _ hc
    simpa using h3

theorem toLowerGo_id_of_allowed (c : Char) (hc : isAllowedChar c = true) :
    toLowerGo c = c := by
  rw [toLowerGo, if_neg]
  rintro ⟨h1, h2⟩
  rw [isAllowedChar] at hc
  simp only [decide_eq_true_eq] at hc
  rcases hc with ⟨ha, _⟩ | ⟨_, hb⟩ | h
  · exact absurd (le_trans ha h2) (by decide)
  · exact absurd (le_trans h1 hb) (by decide)
  · subst h; exact absurd h1 (by decide)

theorem map_toLowerGo_id (s : GoStr) (hs : s.all isAllowedChar = true) :
    s.map toLowerGo = s := by
  induction s with
  | nil => rfl
  | cons c cs ih =>
      rw [List.all_cons, Bool.and_eq_true] at hs
      simp [toLowerGo_id_of_allowed c hs.1, ih hs.2]

/-- `normalizeName` is the identity on strings satisfying the invariant. -/
theorem normalizeName_id_of_good (s : GoStr) (hs : GoodLabel s) :
    normalizeName s = s := by
  obtain ⟨hall, hchain, hhead, hlast⟩ := hs
  simp only [normalizeName]
  rw [map_toLowerGo_id s hall]
  rw [collapseRuns_id_of_none _ s (fun c hc => by
    have h := List.all_eq_true.mp hall c hc
    simp [h]) false]
  rw [(collapseRuns_dash_id s hchain).1]
  rw [dropWhile_id_of_head _ s (fun c hc => by
    have h := hhead c hc
    simp [h])]
  rw [dropWhile_id_of_head _ s.reverse (fun c hc => by
    rw [List.head?_reverse] at hc
    have h := hlast c hc
    simp [h])]
  exact List.reverse_reverse s

theorem allowed_not_dash_alnum (c : Char) (h1 : isAllowedChar c = true)
    (h2 : c ≠ '-') : isAlnumChar c = true := by
  rw [isAllowedChar] at h1
  rw [isAlnumChar]
  simp only [decide_eq_true_eq] at h1 ⊢
  rcases h1 with h | h | h
  · exact Or.inl h
  · exact Or.inr h
  · exact absurd h h2

theorem matchesLabel_of_good (s : GoStr) (hs : GoodLabel s) (hne : s ≠ []) :
    matchesLabel s = true := by
  obtain ⟨hall, _, hhead, hlast⟩ := hs
  cases s with
  | nil => exact absurd rfl hne
  | cons c rest =>
      cases rest with
      | nil =>
          rw [matchesLabel]
          exact allowed_not_dash_alnum c (by simpa using hall) (hhead c rfl)
      | cons c2 cs =>
          rw [matchesLabel]
          simp only [Bool.and_eq_true]
          have hmem : ∀ x ∈ c2 :: cs, isAllowedChar x = true := fun x hx =>
            List.all_eq_true.mp hall x (List.mem_cons_of_mem _ hx)
          obtain ⟨y, hy⟩ : ∃ y, (c2 :: cs).getLast? = some y := by
            cases hgl : (c2 :: cs).getLast? with
            | none => exact absurd (List.getLast?_eq_none_iff.mp hgl) (by simp)
            | some y => exact ⟨y, rfl⟩
          have hyd : (c2 :: cs).getLastD 'x' = y := by
            rw [List.getLastD_eq_getLast?, hy]; rfl
          have hylast : (c :: c2 :: cs).getLast? = some y := by
            rw [List.getLast?_cons_cons]; exact hy
          refine ⟨⟨?_, ?_⟩, ?_⟩
          · exact allowed_not_dash_alnum c (List.all_eq_true.mp hall c
              (List.mem_cons_self _ _)) (hhead c rfl)
          · rw [List.all_eq_true]
            intro x hx
            exact hmem x ((List.dropLast_prefix _).subset hx)
          · rw [hyd]
            exact allowed_not_dash_alnum y
              (hmem y (List.mem_of_mem_getLast? hy))
              (hlast y hylast)

/-- C8: the project-name normalization is idempotent, and its result is
either empty or matches `^[a-z0-9]([a-z0-9-]*[a-z0-9])?$`. -/
theorem normalizeName_idem_and_shape (s : GoStr) :
    normalizeName (normalizeName s) = normalizeName s ∧
    (normalizeName s = [] ∨ matchesLabel (normalizeName s) = true) := by
  have hg := normalizeName_good s
  refine ⟨normalizeName_id_of_good _ hg, ?_⟩
  by_cases hne : normalizeName s = []
  · exact Or.inl hne
  · exact Or.inr (matchesLabel_of_good _ hg hne)

/-! ## Port allocator (package port, StablePort)

`crypto/sha256` is embedded as an executable SHA-256 over byte lists
(naturals below 256), with 32-bit words as naturals reduced mod `2^32`. -/

/-- `2^32`. -/
def M32 : Nat := 4294967296

/-- 32-bit addition. -/
def add32 (a b : Nat) : Nat := (a + b) % M32

/-- 32-bit rotate right. -/
def rotr32 (n x : Nat) : Nat :=
  Nat.lor (x >>> n) ((x <<< (32 - n)) % M32)

/-- 32-bit logical shift right. -/
def shr32 (n x : Nat) : Nat := x >>> n

/-- Three-way xor. -/
def xor3 (a b c : Nat) : Nat := Nat.xor (Nat.xor a b) c

def bsig0 (x : Nat) : Nat := xor3 (rotr32 2 x) (rotr32 13 x) (rotr32 22 x)
def bsig1 (x : Nat) : Nat := xor3 (rotr32 6 x) (rotr32 11 x) (rotr32 25 x)
def ssig0 (x : Nat) : Nat := xor3 (rotr32 7 x) (rotr32 18 x) (shr32 3 x)
def ssig1 (x : Nat) : Nat := xor3 (rotr32 17 x) (rotr32 19 x) (shr32 10 x)

/-- SHA-256 `Ch` function (`¬x` as xor with `2^32 - 1`). -/
def chF (x y z : Nat) : Nat :=
  Nat.xor (Nat.land x y) (Nat.land (Nat.xor x 4294967295) z)

/-- SHA-256 `Maj` function. -/
def majF (x y z : Nat) : Nat :=
  Nat.xor (Nat.xor (Nat.land x y) (Nat.land x z)) (Nat.land y z)

/-- The 64 SHA-256 round constants. -/
def K256 : List Nat :=
 [1116352408, 1899447441, 3049323471, 3921009573, 961987163, 1508970993,
  2453635748, 2870763221, 3624381080, 310598401, 607225278, 1426881987,
  1925078388, 2162078206, 2614888103, 3248222580, 3835390401, 4022224774,
  264347078, 604807628, 770255983, 1249150122, 1555081692, 1996064986,
  2554220882, 2821834349, 2952996808, 3210313671, 3336571891, 3584528711,
  113926993, 338241895, 666307205, 773529912, 1294757372, 1396182291,
  1695183700, 1986661051, 2177026350, 2456956037, 2730485921, 2820302411,
  3259730800, 3345764771, 3516065817, 3600352804, 4094571909, 275423344,
  430227734, 506948616, 659060556, 883997877, 958139571, 1322822218,
  1537002063, 1747873779, 1955562222, 2024104815, 2227730452, 2361852424,
  2428436474, 2756734187, 3204031479, 3329325298]

/-- The 8 initial SHA-256 hash values. -/
def H256 : List Nat :=
 [1779033703, 3144134277, 1013904242, 2773480762, 1359893119, 2600822924,
  528734635, 1541459225]

/-- Big-endian 32-bit word from four bytes. -/
def bytesToWordBE (a b c d : Nat) : Nat := ((a * 256 + b) * 256 + c) * 256 + d

/-- Group a byte list into big-endian 32-bit words. -/
def wordsOf : List Nat → List Nat
  | a :: b :: c :: d :: rest => bytesToWordBE a b c d :: wordsOf rest
  | _ => []

/-- Message-schedule extension: append one word per unit of fuel
(`W[i] = σ₁(W[i-2]) + W[i-7] + σ₀(W[i-15]) + W[i-16]`). -/
def schedule : Nat → List Nat → List Nat
  | 0, w => w
  | Nat.succ fuel, w =>
      let n := w.length
      let wi := add32 (add32 (ssig1 (w.getD (n - 2) 0)) (w.getD (n - 7) 0))
                      (add32 (ssig0 (w.getD (n - 15) 0)) (w.getD (n - 16) 0))
      schedule fuel (w ++ [wi])

/-- One SHA-256 compression round on the state `[a,b,c,d,e,f,g,h]`. -/
def roundStep (st : List Nat) (kw : Nat × Nat) : List Nat :=
  let a := st.getD 0 0
  let b := st.getD 1 0
  let c := st.getD 2 0
  let d := st.getD 3 0
  let e := st.getD 4 0
  let f := st.getD 5 0
  let g := st.getD 6 0
  let h := st.getD 7 0
  let t1 := add32 (add32 (add32 h (bsig1 e)) (add32 (chF e f g) kw.1)) kw.2
  let t2 := add32 (bsig0 a) (majF a b c)
  [add32 t1 t2, a, b, c, add32 d t1, e, f, g]

/-- Compress one 64-byte block into the running hash state. -/
def compressBlock (hst : List Nat) (block : List Nat) : List Nat :=
  let w := schedule 48 (wordsOf block)
  let st := (K256.zip w).foldl roundStep hst
  List.zipWith add32 hst st

/-- Split into 64-byte chunks (fuel-based; the list length is enough fuel). -/
def chunks64 : Nat → List Nat → List (List Nat)
  | 0, _ => []
  | Nat.succ fuel, l =>
      match l with
      | [] => []
      | _ => l.take 64 :: chunks64 fuel (l.drop 64)

/-- Big-endian bytes of a 32-bit word. -/
def wordToBytesBE (w : Nat) : List Nat :=
  [w / 16777216 % 256, w / 65536 % 256, w / 256 % 256, w % 256]

/-- Big-endian bytes of the 64-bit bit-length field. -/
def lenBytesBE (n : Nat) : List Nat :=
  [n / 72057594037927936 % 256, n / 281474976710656 % 256,
   n / 1099511627776 % 256, n / 4294967296 % 256,
   n / 16777216 % 256, n / 65536 % 256, n / 256 % 256, n % 256]

/-- SHA-256 of a byte list: pad with `0x80`, zeros, and the 64-bit bit
length to a multiple of 64 bytes, then compress each block. -/
def sha256Bytes (msg : List Nat) : List Nat :=
  let L := msg.length
  let padLen := (119 - (L % 64)) % 64
  let padded := msg ++ 128 :: (List.replicate padLen 0 ++ lenBytesBE (L * 8))
  let blocks := chunks64 (padded.length) padded
  (blocks.foldl compressBlock H256).foldr (fun w acc => wordToBytesBE w ++ acc) []

/-- UTF-8 encoding of one character (Go strings are UTF-8 byte sequences). -/
def utf8Bytes (c : Char) : List Nat :=
  let n := c.toNat
  if n < 128 then [n]
  else if n < 2048 then [192 + n / 64, 128 + n % 64]
  else if n < 65536 then [224 + n / 4096, 128 + (n / 64) % 64, 128 + n % 64]
  else [240 + n / 262144, 128 + (n / 4096) % 64, 128 + (n / 64) % 64, 128 + n % 64]

/-- The UTF-8 bytes of a string (`[]byte(name)` in Go). -/
def strBytes (s : GoStr) : List Nat := s.foldr (fun c acc => utf8Bytes c ++ acc) []

/-- `binary.BigEndian.Uint32(hash[:4])` of the SHA-256 of the name. -/
def hashWord (name : GoStr) : Nat :=
  let h := sha256Bytes (strBytes name)
  bytesToWordBE (h.getD 0 0) (h.getD 1 0) (h.getD 2 0) (h.getD 3 0)

/-- SHA-256 sanity check against the standard `"abc"` test vector. -/
theorem sha256_abc_vector :
    sha256Bytes (strBytes "abc".toList) =
      [186, 120, 22, 191, 143, 1, 207, 234, 65, 65, 64, 222, 93, 174, 34, 35,
       176, 3, 97, 163, 150, 23, 122, 156, 180, 16, 255, 97, 242, 0, 21, 173] := by
  set_option maxRecDepth 10000 in decide

/-- The port-range constants of the allocator. -/
def minPort : Nat := 10240
def maxPort : Nat := 49151

/-- The avoid-set of well-known development ports. -/
def avoidPorts : List Nat := [3000, 4000, 4321, 5000, 5173, 8000, 8080, 8787, 9229]

/-- `maxPort - minPort + 1 = 38912`, the number of candidate ports. -/
def portRange : Nat := maxPort - minPort + 1

/-- The increment-with-wrap step of the probe loop. -/
def nextPort (port : Nat) : Nat := if port + 1 > maxPort then minPort else port + 1

/-- A port the loop accepts: not in the avoid-set and free. -/
def goodPort (isFree : Nat → Bool) (p : Nat) : Bool :=
  !(avoidPorts.contains p) && isFree p

/-- The probe loop of `StablePort`: try the current port, step with wrap,
stop on a full cycle back to the initial port or when the attempt budget
(`maxAttempts = portRange`, the fuel) runs out. -/
def probeLoop (isFree : Nat → Bool) (initialPort : Nat) : Nat → Nat → Option Nat
  | 0, _ => none
  | Nat.succ fuel, port =>
      if goodPort isFree port then some port
      else
        if nextPort port = initialPort then none
        else probeLoop isFree initialPort fuel (nextPort port)

/-- Embedding of `port.StablePort`, parameterized by the occupancy oracle
`IsPortFree`: hash the name, map the first word onto the port range, probe. -/
def StablePort (name : GoStr) (isFree : Nat → Bool) : Option Nat :=
  let hashNum := hashWord name
  let initialPort := minPort + hashNum % portRange
  probeLoop isFree initialPort portRange initialPort

/-- The full probe cycle written as the spec describes it: starting at the
initial port, increment by one with wrap-around `49151 → 10240`, for one
full cycle of `portRange` candidates. -/
def probeSeq (initialPort : Nat) : List Nat :=
  (List.range' 0 portRange).map
    fun i => minPort + ((initialPort - minPort + i) % portRange)

/-- The loop is `find?` over the truncated orbit of `nextPort`. -/
def orbitTo (initialPort : Nat) : Nat → Nat → List Nat
  | 0, _ => []
  | Nat.succ fuel, port =>
      port :: (if nextPort port = initialPort then []
               else orbitTo initialPort fuel (nextPort port))

theorem probeLoop_eq_find (isFree : Nat → Bool) (initialPort : Nat) :
    ∀ (fuel port : Nat),
      probeLoop isFree initialPort fuel port =
        (orbitTo initialPort fuel port).find? (goodPort isFree) := by
  intro fuel
  induction fuel with
  | zero => intro port; rfl
  | succ f ih =>
      intro port
      rw [probeLoop, orbitTo]
      by_cases hg : goodPort isFree port = true
      · simp [List.find?, hg]
      · simp only [Bool.not_eq_true] at hg
        by_cases hn : nextPort port = initialPort
        · simp [List.find?, hg, hn]
        · simp [List.find?, hg, hn, ih]

theorem portRange_pos : 0 < portRange := by decide

theorem nextPort_pos (δ i : Nat) :
    nextPort (minPort + ((δ + i) % portRange)) =
      minPort + ((δ + (i + 1)) % portRange) := by
  have hR : (0 : Nat) < portRange := portRange_pos
  have hr : (δ + i) % portRange < portRange := Nat.mod_lt _ hR
  have h1R : 1 % portRange = 1 := Nat.mod_eq_of_lt (by decide)
  have hsucc : (δ + (i + 1)) % portRange =
      ((δ + i) % portRange + 1) % portRange := by
    rw [← Nat.add_assoc, Nat.add_mod, h1R]
  rw [hsucc, nextPort]
  set r := (δ + i) % portRange with hrdef
  by_cases hend : r + 1 = portRange
  · have h1 : minPort + r + 1 > maxPort := by
      simp only [minPort, maxPort, portRange] at hend ⊢
      omega
    rw [if_pos h1, hend, Nat.mod_self]
    omega
  · have hlt : r + 1 < portRange := by omega
    have h1 : ¬(minPort + r + 1 > maxPort) := by
      simp only [minPort, maxPort, portRange] at hlt ⊢
      omega
    rw [if_neg h1, Nat.mod_eq_of_lt hlt]
    omega

theorem pos_ne_initial (δ m : Nat) (hδ : δ < portRange) (hm0 : 0 < m)
    (hmR : m < portRange) :
    minPort + ((δ + m) % portRange) ≠ minPort + δ := by
  intro h
  have h2 : (δ + m) % portRange = δ := by omega
  by_cases hlt : δ + m < portRange
  · rw [Nat.mod_eq_of_lt hlt] at h2
    omega
  · have hlt2 : δ + m - portRange < portRange := by omega
    have h3 : (δ + m) % portRange = δ + m - portRange := by
      rw [Nat.mod_eq_sub_mod (by omega), Nat.mod_eq_of_lt hlt2]
    omega

theorem orbitTo_eq_range (δ : Nat) (hδ : δ < portRange) :
    ∀ (j i : Nat), i + j = portRange →
      orbitTo (minPort + δ) j (minPort + ((δ + i) % portRange)) =
        (List.range' i j).map fun t => minPort + ((δ + t) % portRange) := by
  intro j
  induction j with
  | zero => intro i _; rfl
  | succ j ih =>
      intro i hij
      rw [orbitTo, nextPort_pos δ i, List.range'_succ i j 1, List.map_cons]
      cases j with
      | zero =>
          have hi1 : i + 1 = portRange := by omega
          have hcond : minPort + ((δ + (i + 1)) % portRange) = minPort + δ := by
            rw [hi1, Nat.add_mod_right, Nat.mod_eq_of_lt hδ]
          rw [if_pos hcond]
          rfl
      | succ j2 =>
          have hne : minPort + ((δ + (i + 1)) % portRange) ≠ minPort + δ :=
            pos_ne_initial δ (i + 1) hδ (by omega) (by omega)
          rw [if_neg hne, ih (i + 1) (by omega)]

/-- C2 (amended): the allocator computes `H = SHA-256(name)`, takes the
first 4 bytes big-endian as `h`, starts probing at
`initial = 10240 + (h mod 38912)` (the source's `portRange` is
`49151 - 10240 + 1 = 38912`, not the claimed `39912`), increments by 1 with
wrap-around `49151 → 10240`, skips the avoid-set, returns the first port
passing `isFree`, and fails exactly when the full cycle of 38912 candidates
contains no acceptable port; every returned port is in range, outside the
avoid-set and free. -/
theorem stablePort_probes_cycle (name : GoStr) (isFree : Nat → Bool) :
    StablePort name isFree =
      (probeSeq (minPort + hashWord name % portRange)).find? (goodPort isFree) ∧
    ∀ p, StablePort name isFree = some p →
      minPort ≤ p ∧ p ≤ maxPort ∧
      avoidPorts.contains p = false ∧ isFree p = true := by
  have hδ : hashWord name % portRange < portRange := Nat.mod_lt _ portRange_pos
  have hmain : StablePort name isFree =
      (probeSeq (minPort + hashWord name % portRange)).find? (goodPort isFree) := by
    simp only [StablePort]
    have h0 : minPort + hashWord name % portRange =
        minPort + ((hashWord name % portRange + 0) % portRange) := by
      rw [Nat.add_zero, Nat.mod_eq_of_lt hδ]
    have E := orbitTo_eq_range (hashWord name % portRange) hδ portRange 0 (by omega)
    rw [← h0] at E
    rw [probeLoop_eq_find, E, probeSeq]
    exact congrArg _ (List.map_congr_left fun t _ => by
      have : minPort + hashWord name % portRange - minPort =
          hashWord name % portRange := by omega
      rw [this])
  refine ⟨hmain, ?_⟩
  intro p hp
  rw [hmain] at hp
  have hgood := List.find?_some hp
  have hmem := List.mem_of_find?_eq_some hp
  rw [goodPort, Bool.and_eq_true, Bool.not_eq_true'] at hgood
  rw [probeSeq, List.mem_map] at hmem
  obtain ⟨t, _, ht⟩ := hmem
  generalize hq : (minPort + hashWord name % portRange - minPort + t) % portRange = r at ht
  have hrlt : r < portRange := by
    rw [← hq]; exact Nat.mod_lt _ portRange_pos
  refine ⟨?_, ?_, hgood.1, hgood.2⟩
  · simp only [minPort] at ht ⊢
    omega
  · simp only [minPort, maxPort, portRange] at hrlt ht ⊢
    omega

set_option maxRecDepth 10000 in
/-- C2 counterexample: for the name `"a"` with every port free, the code
returns `10240 + (h mod 38912) = 12562`, while the claim's formula
`initial = 10240 + (h mod 39912)` demands `30930` — a port outside the
avoid-set, which the claimed algorithm would return immediately. -/
theorem stablePort_mod_counterexample :
    StablePort "a".toList (fun _ => true) = some 12562 ∧
    10240 + hashWord "a".toList % 39912 = 30930 ∧
    avoidPorts.contains 30930 = false ∧
    (12562 : Nat) ≠ 30930 := by
  refine ⟨by decide, by decide, by decide, by decide⟩

set_option maxRecDepth 10000 in
/-- C2 witness: the amended probing theorem applied at name `"a"` with the
all-free oracle, whose allocator result `12562` is in range, outside the
avoid-set and free. -/
theorem stablePort_probes_cycle_witness :
    minPort ≤ 12562 ∧ 12562 ≤ maxPort ∧
    avoidPorts.contains 12562 = false ∧ (fun _ : Nat => true) 12562 = true :=
  (stablePort_probes_cycle "a".toList (fun _ => true)).2 12562 (by decide)

/-! ## Hosts-file managed block (daemon, part_003)

`strings.Index` works on byte offsets; the markers and all hosts written to
the block are ASCII, so character offsets coincide with byte offsets for the
managed block, and the model uses character lists uniformly. -/

def labHostsStartMarker : GoStr := "# faa lab hosts start".toList
def labHostsEndMarker : GoStr := "# faa lab hosts end".toList

/-- Embedding of `strings.Index` (first occurrence; `none` for Go's `-1`). -/
def strIndexA (pat : GoStr) : GoStr → Option Nat
  | [] => if pat.isEmpty then some 0 else none
  | c :: rest =>
      if pat.isPrefixOf (c :: rest) then some 0
      else (strIndexA pat rest).map (· + 1)

/-- `strings.TrimRight(s, "\n")`: remove every trailing newline. -/
def trimRightNL (s : GoStr) : GoStr :=
  (s.reverse.dropWhile fun c => c = '\n').reverse

/-- Embedding of `renderLabHostsBlock`: empty for no hosts, otherwise the
start marker, one `127.0.0.1` and one `::1` line per host, and the end
marker, each line newline-terminated. -/
def renderLabHostsBlock (hosts : List GoStr) : GoStr :=
  if hosts.isEmpty then []
  else
    labHostsStartMarker ++ ['\n'] ++
      (hosts.foldr (fun h acc =>
        "127.0.0.1 ".toList ++ h ++ ['\n'] ++ "::1 ".toList ++ h ++ ['\n'] ++ acc) []) ++
      (labHostsEndMarker ++ ['\n'])

/-- Embedding of `replaceLabHostsBlock`: when both markers are found in
order, cut from the start marker through the end marker plus one following
newline; then, for an empty new block, normalize trailing newlines to
exactly one; for a non-empty block, ensure a trailing newline and append
the block at the end. -/
def replaceLabHostsBlock (content block : GoStr) : GoStr :=
  let content1 :=
    match strIndexA labHostsStartMarker content,
        strIndexA labHostsEndMarker content with
    | some s, some e =>
        if e > s then
          let e2 := e + labHostsEndMarker.length
          let suffix := content.drop e2
          let suffix2 := if suffix.head? = some '\n' then suffix.tail else suffix
          content.take s ++ suffix2
        else content
    | _, _ => content
  if block.isEmpty then trimRightNL content1 ++ ['\n']
  else
    let content2 :=
      if content1 ≠ [] ∧ ¬(['\n'].isSuffixOf content1) then content1 ++ ['\n']
      else content1
    content2 ++ block

/-- Embedding of the content transformation of `updateLabHostsFile`
(`readHostsFile` yields `""` for a missing file; the atomic temp-file write
is the same write-then-rename discipline as the registry). -/
def updateLabHostsContent (content : GoStr) (hosts : List GoStr) : GoStr :=
  replaceLabHostsBlock content (renderLabHostsBlock hosts)

/-- C6 counterexample: applying an empty snapshot to a hosts file with no
managed block is **not** always a no-op — an empty (or absent) file becomes
a single newline. -/
theorem hostsBlock_noop_counterexample :
    strIndexA labHostsStartMarker [] = none ∧
    updateLabHostsContent [] [] = ['\n'] ∧
    (['\n'] : GoStr) ≠ ([] : GoStr) := by
  refine ⟨by decide, by decide, by decide⟩

theorem render_split (hosts : List GoStr) (h : hosts ≠ []) :
    ∃ Y, renderLabHostsBlock hosts = Y ++ ['\n'] ∧
      Y.length + 1 = (renderLabHostsBlock hosts).length ∧
      labHostsEndMarker.length + 2 ≤ (renderLabHostsBlock hosts).length := by
  refine ⟨labHostsStartMarker ++ ['\n'] ++
      (hosts.foldr (fun h acc =>
        "127.0.0.1 ".toList ++ h ++ ['\n'] ++ "::1 ".toList ++ h ++ ['\n'] ++ acc) []) ++
      labHostsEndMarker, ?_, ?_, ?_⟩
  · rw [renderLabHostsBlock, if_neg (by simp [List.isEmpty_iff, h])]
    simp [List.append_assoc]
  · rw [renderLabHostsBlock, if_neg (by simp [List.isEmpty_iff, h])]
    simp
    omega
  · rw [renderLabHostsBlock, if_neg (by simp [List.isEmpty_iff, h])]
    simp [labHostsEndMarker, labHostsStartMarker]

theorem render_ne_nil (hosts : List GoStr) (h : hosts ≠ []) :
    renderLabHostsBlock hosts ≠ [] := by
  obtain ⟨Y, hY, _, _⟩ := render_split hosts h
  rw [hY]
  simp

/-- C6 (amended): applying managed block `B' = render hosts'` to a file laid
out as `pre ++ render hosts ++ post` (with the markers located at the block,
as the two index hypotheses state) removes exactly the old block and one
following newline, preserves all other bytes in order, and appends the new
block at the end with a separating newline inserted if needed; applying an
empty snapshot to a file containing no start marker rewrites it to its
content with trailing newlines normalized to exactly one — a no-op precisely
for files already ending in exactly one newline (an empty file becomes a
lone newline, as the counterexample shows). -/
theorem hostsBlock_replace_spec (pre post c2 d : GoStr)
    (hosts hosts' : List GoStr)
    (hhosts : hosts ≠ []) (hhosts' : hosts' ≠ [])
    (h1 : strIndexA labHostsStartMarker
      (pre ++ renderLabHostsBlock hosts ++ post) = some pre.length)
    (h2 : strIndexA labHostsEndMarker
      (pre ++ renderLabHostsBlock hosts ++ post) =
      some (pre.length +
        ((renderLabHostsBlock hosts).length - (labHostsEndMarker.length + 1))))
    (hnone : strIndexA labHostsStartMarker c2 = none)
    (hd : ∀ c, d.getLast? = some c → c ≠ '\n')
    (hdnone : strIndexA labHostsStartMarker (d ++ ['\n']) = none) :
    updateLabHostsContent (pre ++ renderLabHostsBlock hosts ++ post) hosts' =
      (if pre ++ post ≠ [] ∧ ¬(['\n'].isSuffixOf (pre ++ post))
       then pre ++ post ++ ['\n'] else pre ++ post) ++ renderLabHostsBlock hosts' ∧
    updateLabHostsContent c2 [] = trimRightNL c2 ++ ['\n'] ∧
    updateLabHostsContent (d ++ ['\n']) [] = d ++ ['\n'] := by
  have hBnil : ∀ (c : GoStr), strIndexA labHostsStartMarker c = none →
      updateLabHostsContent c [] = trimRightNL c ++ ['\n'] := by
    intro c hcnone
    rw [updateLabHostsContent, replaceLabHostsBlock]
    cases hend : strIndexA labHostsEndMarker c with
    | none => rw [hcnone]; rfl
    | some e => rw [hcnone]; rfl
  obtain ⟨Y, hY, hYlen, hRlen⟩ := render_split hosts hhosts
  refine ⟨?_, hBnil c2 hnone, ?_⟩
  · rw [updateLabHostsContent, replaceLabHostsBlock]
    simp only [h1, h2]
    have hgt : pre.length +
        ((renderLabHostsBlock hosts).length - (labHostsEndMarker.length + 1)) >
        pre.length := by omega
    rw [if_pos hgt]
    have he2 : pre.length +
        ((renderLabHostsBlock hosts).length - (labHostsEndMarker.length + 1)) +
        labHostsEndMarker.length =
        pre.length + ((renderLabHostsBlock hosts).length - 1) := by omega
    rw [he2]
    have hdrop : (pre ++ renderLabHostsBlock hosts ++ post).drop
        (pre.length + ((renderLabHostsBlock hosts).length - 1)) = '\n' :: post := by
      rw [List.append_assoc, List.drop_append]
      have hn : (renderLabHostsBlock hosts).length - 1 = Y.length := by omega
      rw [hn, hY, List.append_assoc, List.singleton_append, List.drop_left]
    have htake : (pre ++ renderLabHostsBlock hosts ++ post).take pre.length = pre := by
      rw [List.append_assoc]
      exact List.take_left pre _
    rw [hdrop, htake]
    simp only [List.head?_cons, if_pos rfl, if_true, List.tail_cons]
    rw [if_neg (by simp [List.isEmpty_iff, render_ne_nil hosts' hhosts'])]
  · rw [hBnil (d ++ ['\n']) hdnone]
    have htrim : trimRightNL (d ++ ['\n']) = d := by
      rw [trimRightNL, List.reverse_append]
      simp only [List.reverse_singleton, List.singleton_append,
        List.dropWhile_cons]
      rw [if_pos (by simp)]
      rw [dropWhile_id_of_head _ d.reverse (fun c hc => by
        rw [List.head?_reverse] at hc
        simp [hd c hc])]
      exact List.reverse_reverse d
    rw [htrim]

/-- C6 witness: the replacement theorem at a concrete hosts file
`"x\n" ++ render ["a.lab"] ++ "y\n"` with new block `render ["b.lab"]`, a
marker-free file `"z"`, and the newline-terminated marker-free file `"w\n"`. -/
theorem hostsBlock_replace_spec_witness :
    updateLabHostsContent
        ("x\n".toList ++ renderLabHostsBlock ["a.lab".toList] ++ "y\n".toList)
        ["b.lab".toList] =
      (if "x\n".toList ++ "y\n".toList ≠ [] ∧
          ¬(['\n'].isSuffixOf ("x\n".toList ++ "y\n".toList))
       then "x\n".toList ++ "y\n".toList ++ ['\n']
       else "x\n".toList ++ "y\n".toList) ++ renderLabHostsBlock ["b.lab".toList] ∧
    updateLabHostsContent "z".toList [] = trimRightNL "z".toList ++ ['\n'] ∧
    updateLabHostsContent ("w".toList ++ ['\n']) [] = "w".toList ++ ['\n'] :=
  hostsBlock_replace_spec "x\n".toList "y\n".toList "z".toList "w".toList
    ["a.lab".toList] ["b.lab".toList]
    (by decide) (by decide) (by decide) (by decide) (by decide)
    (by
      intro c hc
      rw [show ("w".toList).getLast? = some 'w' from rfl] at hc
      cases hc
      decide)
    (by decide)
